import Mathlib

/-!
# Verification of the `TextSummarizer` core (apps/mcp-server-sample/src/index.ts)

Shallow embedding of the extractive text-summarization pipeline: sentence
segmentation, global word-frequency counting, per-sentence scoring and top-k
selection with order restoration.

Modelling conventions:
* A JavaScript string is modelled as `List Char`.
* JavaScript `number` score arithmetic is modelled over `ℚ`.  Every constant
  appearing in the scoring code (`0.5`, `0.3`, `0.2`, `0.8`, `1.5`, `1.2`,
  `20`) is exact in `ℚ`; for the position comparisons `index < total*0.2` and
  `index > total*0.8` the double-precision product differs from the exact
  rational by far less than the distance from `total*0.2` to the nearest
  distinct integer, so the integer comparisons agree with their exact rational
  counterparts, and the remaining score expressions are only ever compared
  between syntactically identical computations (ties) or values separated by
  amounts far above double rounding error at the scales involved.
* `Array.prototype.sort` (stable since ES2019) is modelled by a stable
  insertion sort `stableSortBy` parameterised by the "must come strictly
  before" relation derived from the numeric comparator.
* `Map<string, number>` is modelled as an insertion-ordered association list
  with lookup (`mapGet`) and insert-or-overwrite (`mapSet`).
* `String.prototype.toLowerCase` is modelled by per-character `Char.toLower`
  (ASCII lowering; the behaviours claimed are about ASCII text).
-/

/-- The character class `\s` of JavaScript regular expressions (also the set
trimmed by `String.prototype.trim`). -/
def isWsChar (c : Char) : Bool :=
  c = ' ' || c = Char.ofNat 9 || c = Char.ofNat 10 || c = Char.ofNat 11 ||
  c = Char.ofNat 12 || c = Char.ofNat 13 || c = Char.ofNat 0xa0 ||
  c = Char.ofNat 0x1680 || (Char.ofNat 0x2000 ≤ c && c ≤ Char.ofNat 0x200a) ||
  c = Char.ofNat 0x2028 || c = Char.ofNat 0x2029 || c = Char.ofNat 0x202f ||
  c = Char.ofNat 0x205f || c = Char.ofNat 0x3000 || c = Char.ofNat 0xfeff

/-- The terminal punctuation class `[.!?]` of `splitIntoSentences`. -/
def isTermChar (c : Char) : Bool :=
  c = '.' || c = '!' || c = '?'

/-- The fixed punctuation set removed before word counting:
`[.,!?;:()\[\]{}'\"]` (the same regex occurs in `calculateWordFrequency` and
in `scoreSentence`). -/
def isPunctChar (c : Char) : Bool :=
  c = '.' || c = ',' || c = '!' || c = '?' || c = ';' || c = ':' ||
  c = '(' || c = ')' || c = '[' || c = ']' ||
  c = Char.ofNat 0x7b || c = Char.ofNat 0x7d ||
  c = Char.ofNat 39 || c = Char.ofNat 34

/-- Is the head of the list a `\s` character? (used to test whether a
terminal-punctuation character is "immediately followed by whitespace"). -/
def isWsHead : List Char → Bool
  | [] => false
  | d :: _ => isWsChar d

/-- The sentinel character `|` inserted by the replacement step. -/
def pipeChar : Char := Char.ofNat 124

/-- One left-to-right pass of `text.replace(/([.!?])\s+/g, "$1|")`.
`skipping = true` means the scanner sits inside the `\s+` run of a match
just replaced, whose remaining whitespace must be consumed. -/
def replGo (skipping : Bool) : List Char → List Char
  | [] => []
  | c :: rest =>
    if skipping && isWsChar c then replGo true rest
    else if isTermChar c && isWsHead rest then c :: pipeChar :: replGo true rest
    else c :: replGo false rest

/-- `String.prototype.split("|")` on the sentinel character (split on every
occurrence, empty fragments kept, `"" → [""]`). -/
def splitOnPipe : List Char → List (List Char)
  | [] => [[]]
  | c :: rest =>
    if c = pipeChar then [] :: splitOnPipe rest
    else
      match splitOnPipe rest with
      | [] => [[c]]
      | s :: ss => (c :: s) :: ss

/-- `String.prototype.trim`: strip leading and trailing whitespace. -/
def trimL (s : List Char) : List Char :=
  ((s.dropWhile isWsChar).reverse.dropWhile isWsChar).reverse

/-- `splitIntoSentences`: replace every `[.!?]` followed by a whitespace run
with the punctuation character plus a `|` sentinel, split on the sentinel,
and drop fragments whose trimmed form is empty. -/
def splitIntoSentences (text : List Char) : List (List Char) :=
  (splitOnPipe (replGo false text)).filter (fun s => 0 < (trimL s).length)

/-- Does the text contain an occurrence of `.`, `!` or `?` immediately
followed by a whitespace character (the trigger of the splitting rule)? -/
def hasTermWs : List Char → Bool
  | [] => false
  | c :: rest => (isTermChar c && isWsHead rest) || hasTermWs rest

/-- `split(/\s+/)` followed by `.filter(word => word.length > 0)`: the maximal
runs of non-whitespace characters.  `acc` accumulates the current run in
reverse. -/
def wordsAux (acc : List Char) : List Char → List (List Char)
  | [] => if acc.isEmpty then [] else [acc.reverse]
  | c :: rest =>
    if isWsChar c then
      if acc.isEmpty then wordsAux [] rest else acc.reverse :: wordsAux [] rest
    else wordsAux (c :: acc) rest

/-- The word normalisation shared by `calculateWordFrequency` and
`scoreSentence`: lower-case, strip the fixed punctuation set, split on
whitespace runs, discard empty tokens. -/
def wordsOf (text : List Char) : List (List Char) :=
  wordsAux [] ((text.map Char.toLower).filter (fun c => !isPunctChar c))

/-- `Map.prototype.get`. -/
def mapGet : List (List Char × ℕ) → List Char → Option ℕ
  | [], _ => none
  | (k, v) :: rest, key => if k = key then some v else mapGet rest key

/-- `Map.prototype.set`: overwrite in place if the key exists, else append. -/
def mapSet : List (List Char × ℕ) → List Char → ℕ → List (List Char × ℕ)
  | [], key, v => [(key, v)]
  | (k, w) :: rest, key, v =>
    if k = key then (k, v) :: rest else (k, w) :: mapSet rest key v

/-- `wordFrequency.get(word) || 0`. -/
def getOrZero (m : List (List Char × ℕ)) (key : List Char) : ℕ :=
  (mapGet m key).getD 0

/-- `calculateWordFrequency`: count each normalised word of the whole text. -/
def calculateWordFrequency (text : List Char) : List (List Char × ℕ) :=
  (wordsOf text).foldl (fun m w => mapSet m w (getOrZero m w + 1)) []

/-- The position factor of `scoreSentence`: `1.5` for the first or last
sentence, `1.2` strictly inside the first or last 20 % of positions, else
`1.0`. -/
def positionScore (index totalSentences : ℕ) : ℚ :=
  if index = 0 ∨ index = totalSentences - 1 then 1.5
  else if (index : ℚ) < (totalSentences : ℚ) * 0.2 ∨
          (index : ℚ) > (totalSentences : ℚ) * 0.8 then 1.2
  else 1.0

/-- `scoreSentence`: frequency sum over the sentence's tokens (accumulated by
a loop, as in the source), capped length score, position factor. -/
def scoreSentence (sentence : List Char) (wordFrequency : List (List Char × ℕ))
    (index totalSentences : ℕ) : ℚ :=
  let words := wordsOf sentence
  let frequencyScore : ℚ :=
    words.foldl (fun acc word => acc + (getOrZero wordFrequency word : ℚ)) 0
  let lengthScore : ℚ := (min words.length 20 : ℕ) / 20
  (frequencyScore * 0.5 + lengthScore * 0.3) * positionScore index totalSentences

/-- The record produced for each sentence before sorting:
`{ sentence, score, index }`. -/
structure ScoredSentence where
  sentence : List Char
  score : ℚ
  index : ℕ
  deriving DecidableEq

/-- `Array.prototype.map((x, i) => f i x)` with the index running from `k`. -/
def mapIdxFrom (f : ℕ → List Char → ScoredSentence) (k : ℕ) :
    List (List Char) → List ScoredSentence
  | [] => []
  | s :: ss => f k s :: mapIdxFrom f (k + 1) ss

/-- The scored-sentence list built by `summarize` before sorting. -/
def scoredOf (text : List Char) : List ScoredSentence :=
  let sentences := splitIntoSentences text
  mapIdxFrom
    (fun i s =>
      ⟨s, scoreSentence s (calculateWordFrequency text) i sentences.length, i⟩)
    0 sentences

/-- Insert `x` immediately before the first element it must strictly precede:
the position a stable comparator sort assigns to a newly considered element. -/
def insertBy (before : ScoredSentence → ScoredSentence → Bool)
    (x : ScoredSentence) : List ScoredSentence → List ScoredSentence
  | [] => [x]
  | y :: ys => if before x y then x :: y :: ys else y :: insertBy before x ys

/-- Stable sort by a strict "comes before" relation, processing elements in
their original order; models ES2019 `Array.prototype.sort(comparator)`. -/
def stableSortBy (before : ScoredSentence → ScoredSentence → Bool)
    (l : List ScoredSentence) : List ScoredSentence :=
  l.foldl (fun acc x => insertBy before x acc) []

/-- The comparator `(a, b) => b.score - a.score`: `a` strictly precedes `b`
when `a.score > b.score`. -/
def scoreBefore (a b : ScoredSentence) : Bool :=
  b.score < a.score

/-- The comparator `(a, b) => a.index - b.index`: `a` strictly precedes `b`
when `a.index < b.index`. -/
def idxBefore (a b : ScoredSentence) : Bool :=
  a.index < b.index

/-- How many elements `Array.prototype.slice(0, m)` keeps from an array of
length `n`: `min(m, n)` clamped below by `0`, with a negative `m` counting
from the end (`n + m`, clamped at `0`). -/
def sliceCount (n : ℕ) (m : ℤ) : ℕ :=
  if m < 0 then ((n : ℤ) + m).toNat else min m.toNat n

/-- `Array.prototype.join(" ")`. -/
def joinSpace (l : List (List Char)) : List Char :=
  List.intercalate [' '] l

/-- The `topSentences` list of `summarize`: sort descending by score (stable),
slice the first `maxSentences`, re-sort ascending by original index. -/
def selectedOf (text : List Char) (maxSentences : ℤ) : List ScoredSentence :=
  stableSortBy idxBefore
    ((stableSortBy scoreBefore (scoredOf text)).take
      (sliceCount (splitIntoSentences text).length maxSentences))

/-- `summarize`: return the text itself when it has at most `maxSentences`
sentences, else join the selected sentences with single spaces. -/
def summarize (text : List Char) (maxSentences : ℤ) : List Char :=
  let sentences := splitIntoSentences text
  if (sentences.length : ℤ) ≤ maxSentences then text
  else joinSpace ((selectedOf text maxSentences).map (fun x => x.sentence))

/-! ## Helper lemmas: the stable insertion sort -/

theorem insertBy_perm (before : ScoredSentence → ScoredSentence → Bool)
    (x : ScoredSentence) (l : List ScoredSentence) :
    (insertBy before x l).Perm (x :: l) := by
  induction l with
  | nil => simp [insertBy]
  | cons y ys ih =>
    by_cases h : before x y
    · simp [insertBy, h]
    · simp only [insertBy, h, if_neg, Bool.false_eq_true, ite_false]
      exact (ih.cons y).trans (List.Perm.swap x y ys)

theorem stableSortBy_perm (before : ScoredSentence → ScoredSentence → Bool)
    (l : List ScoredSentence) : (stableSortBy before l).Perm l := by
  suffices h : ∀ acc : List ScoredSentence,
      (l.foldl (fun acc x => insertBy before x acc) acc).Perm (acc ++ l) by
    simpa using h []
  induction l with
  | nil => intro acc; simp
  | cons x xs ih =>
    intro acc
    have h1 := ih (insertBy before x acc)
    have h2 : (insertBy before x acc ++ xs).Perm ((x :: acc) ++ xs) :=
      (insertBy_perm before x acc).append_right xs
    have h3 : ((x :: acc) ++ xs).Perm (acc ++ x :: xs) := List.perm_middle.symm
    exact h1.trans (h2.trans h3)

theorem mem_insertBy {before : ScoredSentence → ScoredSentence → Bool}
    {x z : ScoredSentence} {l : List ScoredSentence}
    (h : z ∈ insertBy before x l) : z = x ∨ z ∈ l :=
  (List.mem_cons.mp ((insertBy_perm before x l).mem_iff.mp h))

theorem pairwise_insertBy {R : ScoredSentence → ScoredSentence → Prop}
    {before : ScoredSentence → ScoredSentence → Bool}
    (hba : ∀ a b, before a b = true → R a b)
    (hbf : ∀ a b, before a b = false → R b a)
    (ht : ∀ {a b c}, R a b → R b c → R a c)
    (x : ScoredSentence) {l : List ScoredSentence} (hl : l.Pairwise R) :
    (insertBy before x l).Pairwise R := by
  induction l with
  | nil => simp [insertBy]
  | cons y ys ih =>
    rcases List.pairwise_cons.mp hl with ⟨hy, hys⟩
    by_cases h : before x y
    · simp only [insertBy, h, if_pos]
      refine List.pairwise_cons.mpr ⟨?_, hl⟩
      intro z hz
      rcases List.mem_cons.mp hz with rfl | hz
      · exact hba _ _ h
      · exact ht (hba _ _ h) (hy z hz)
    · simp only [insertBy, h, Bool.false_eq_true, ite_false]
      refine List.pairwise_cons.mpr ⟨?_, ih hys⟩
      intro z hz
      rcases mem_insertBy hz with rfl | hz
      · exact hbf _ _ (Bool.not_eq_true _ ▸ h)
      · exact hy z hz

theorem stableSortBy_pairwise {R : ScoredSentence → ScoredSentence → Prop}
    {before : ScoredSentence → ScoredSentence → Bool}
    (hba : ∀ a b, before a b = true → R a b)
    (hbf : ∀ a b, before a b = false → R b a)
    (ht : ∀ {a b c}, R a b → R b c → R a c)
    (l : List ScoredSentence) : (stableSortBy before l).Pairwise R := by
  suffices h : ∀ acc : List ScoredSentence, acc.Pairwise R →
      (l.foldl (fun acc x => insertBy before x acc) acc).Pairwise R by
    exact h [] (List.Pairwise.nil)
  induction l with
  | nil => intro acc hacc; simpa using hacc
  | cons x xs ih =>
    intro acc hacc
    exact ih (insertBy before x acc) (pairwise_insertBy hba hbf ht x hacc)

/-! ## Helper lemmas: the indexed map -/

theorem length_mapIdxFrom (f : ℕ → List Char → ScoredSentence) (k : ℕ)
    (l : List (List Char)) : (mapIdxFrom f k l).length = l.length := by
  induction l generalizing k with
  | nil => rfl
  | cons s ss ih => simp [mapIdxFrom, ih]

theorem mem_mapIdxFrom {f : ℕ → List Char → ScoredSentence} {k : ℕ}
    {l : List (List Char)} {x : ScoredSentence} (h : x ∈ mapIdxFrom f k l) :
    ∃ j, j < l.length ∧ x = f (k + j) (l.getD j []) := by
  induction l generalizing k with
  | nil => simp [mapIdxFrom] at h
  | cons s ss ih =>
    rcases List.mem_cons.mp h with rfl | h
    · exact ⟨0, by simp, by simp⟩
    · rcases ih h with ⟨j, hj, hx⟩
      exact ⟨j + 1, by simpa using hj, by simpa [Nat.add_assoc, Nat.add_comm 1 j] using hx⟩

theorem map_index_mapIdxFrom (f : ℕ → List Char → ScoredSentence)
    (hf : ∀ i s, (f i s).index = i) (k : ℕ) (l : List (List Char)) :
    (mapIdxFrom f k l).map (fun x => x.index) = List.range' k l.length := by
  induction l generalizing k with
  | nil => rfl
  | cons s ss ih => simp [mapIdxFrom, List.range', hf, ih]

/-! ## Helper lemmas: the frequency map -/

theorem getOrZero_mapSet (m : List (List Char × ℕ)) (k w : List Char) (v : ℕ) :
    getOrZero (mapSet m k v) w = if k = w then v else getOrZero m w := by
  induction m with
  | nil =>
    by_cases h : k = w <;> simp [mapSet, getOrZero, mapGet, h]
  | cons p rest ih =>
    obtain ⟨pk, pv⟩ := p
    by_cases hpk : pk = k
    · subst hpk
      by_cases h : pk = w <;> simp [mapSet, getOrZero, mapGet, h]
    · by_cases h : pk = w
      · subst h
        have hkw : ¬ k = pk := fun hh => hpk hh.symm
        simp [mapSet, getOrZero, mapGet, hpk, hkw]
      · have hh := ih
        simp only [getOrZero] at hh
        simp [mapSet, getOrZero, mapGet, hpk, h, hh]

theorem getOrZero_foldl (ws : List (List Char)) (m : List (List Char × ℕ))
    (w : List Char) :
    getOrZero (ws.foldl (fun m u => mapSet m u (getOrZero m u + 1)) m) w =
      getOrZero m w + ws.count w := by
  induction ws generalizing m with
  | nil => simp
  | cons u us ih =>
    simp only [List.foldl_cons, ih, getOrZero_mapSet, List.count_cons]
    by_cases h : u = w
    · subst h; simp; omega
    · have : ¬ (w = u) := fun hh => h hh.symm
      simp [h, this]

theorem getOrZero_calculateWordFrequency (text : List Char) (w : List Char) :
    getOrZero (calculateWordFrequency text) w = (wordsOf text).count w := by
  have := getOrZero_foldl (wordsOf text) [] w
  simpa [calculateWordFrequency, getOrZero, mapGet] using this

/-! ## Helper lemmas: selection -/

theorem sliceCount_le (n : ℕ) (m : ℤ) : sliceCount n m ≤ n := by
  unfold sliceCount
  by_cases h : m < 0
  · simp only [h, if_pos]
    omega
  · simp only [h, if_neg, Bool.false_eq_true, ite_false]
    omega

theorem sorted_by_score (l : List ScoredSentence) :
    (stableSortBy scoreBefore l).Pairwise (fun a b => b.score ≤ a.score) := by
  refine stableSortBy_pairwise ?_ ?_ ?_ l
  · intro a b h
    exact le_of_lt (by simpa [scoreBefore] using h)
  · intro a b h
    have hn : ¬ (b.score < a.score) := by simpa [scoreBefore] using h
    exact not_lt.mp hn
  · intro a b c hab hbc
    exact le_trans hbc hab

theorem sorted_by_idx (l : List ScoredSentence) :
    (stableSortBy idxBefore l).Pairwise (fun a b => a.index ≤ b.index) := by
  refine stableSortBy_pairwise ?_ ?_ ?_ l
  · intro a b h
    exact le_of_lt (by simpa [idxBefore] using h)
  · intro a b h
    have hn : ¬ (a.index < b.index) := by simpa [idxBefore] using h
    exact not_lt.mp hn
  · intro a b c hab hbc
    exact le_trans hab hbc

theorem length_scoredOf (text : List Char) :
    (scoredOf text).length = (splitIntoSentences text).length := by
  simp only [scoredOf]
  exact length_mapIdxFrom _ _ _

theorem map_index_scoredOf (text : List Char) :
    (scoredOf text).map (fun x => x.index) =
      List.range' 0 (splitIntoSentences text).length := by
  simp only [scoredOf]
  exact map_index_mapIdxFrom _ (fun i s => rfl) 0 _

theorem mem_scoredOf {text : List Char} {x : ScoredSentence}
    (h : x ∈ scoredOf text) :
    x.index < (splitIntoSentences text).length ∧
      x.sentence = (splitIntoSentences text).getD x.index [] := by
  simp only [scoredOf] at h
  rcases mem_mapIdxFrom h with ⟨j, hj, hx⟩
  subst hx
  simpa using hj

/-- Master decomposition of the Selector: `selectedOf text m` together with
the dropped tail of the score-sorted list partitions the scored sentences;
the selection has `sliceCount` many entries, strictly increasing original
indices, each entry is the sentence at its index, and every dropped sentence
scores no higher than any selected one. -/
theorem selectedOf_spec (text : List Char) (m : ℤ) :
    ∃ rest : List ScoredSentence,
      (selectedOf text m ++ rest).Perm (scoredOf text) ∧
      (selectedOf text m).length = sliceCount (splitIntoSentences text).length m ∧
      ((selectedOf text m).map (fun x => x.index)).Pairwise (· < ·) ∧
      (∀ x ∈ selectedOf text m,
        x.index < (splitIntoSentences text).length ∧
          x.sentence = (splitIntoSentences text).getD x.index []) ∧
      (∀ x ∈ selectedOf text m, ∀ y ∈ rest, y.score ≤ x.score) := by
  have hperm_sorted : (stableSortBy scoreBefore (scoredOf text)).Perm (scoredOf text) :=
    stableSortBy_perm _ _
  have hlen_sorted : (stableSortBy scoreBefore (scoredOf text)).length =
      (splitIntoSentences text).length :=
    hperm_sorted.length_eq.trans (length_scoredOf text)
  have hcnt_le : sliceCount (splitIntoSentences text).length m ≤
      (splitIntoSentences text).length := sliceCount_le _ _
  have hperm_sel : (selectedOf text m).Perm
      ((stableSortBy scoreBefore (scoredOf text)).take
        (sliceCount (splitIntoSentences text).length m)) :=
    stableSortBy_perm _ _
  have hmem_sel : ∀ x ∈ selectedOf text m,
      x ∈ (stableSortBy scoreBefore (scoredOf text)).take
        (sliceCount (splitIntoSentences text).length m) :=
    fun x hx => hperm_sel.mem_iff.mp hx
  refine ⟨(stableSortBy scoreBefore (scoredOf text)).drop
      (sliceCount (splitIntoSentences text).length m), ?_, ?_, ?_, ?_, ?_⟩
  · have h1 := hperm_sel.append_right
      ((stableSortBy scoreBefore (scoredOf text)).drop
        (sliceCount (splitIntoSentences text).length m))
    rw [List.take_append_drop] at h1
    exact h1.trans hperm_sorted
  · rw [hperm_sel.length_eq, List.length_take, hlen_sorted]
    omega
  · have hpw_le : ((selectedOf text m).map (fun x => x.index)).Pairwise (· ≤ ·) :=
      List.pairwise_map.mpr (sorted_by_idx _)
    have hscored_idx := map_index_scoredOf text
    have hnodup_scored : ((scoredOf text).map (fun x => x.index)).Nodup := by
      rw [hscored_idx, ← List.range_eq_range']
      exact List.nodup_range _
    have hnodup_sorted :
        ((stableSortBy scoreBefore (scoredOf text)).map (fun x => x.index)).Nodup :=
      ((hperm_sorted.map _).nodup_iff).mpr hnodup_scored
    have hnodup_top :
        (((stableSortBy scoreBefore (scoredOf text)).take
          (sliceCount (splitIntoSentences text).length m)).map (fun x => x.index)).Nodup := by
      rw [List.map_take]
      exact (List.take_sublist _ _).nodup hnodup_sorted
    have hnodup_sel : ((selectedOf text m).map (fun x => x.index)).Nodup :=
      ((hperm_sel.map _).nodup_iff).mpr hnodup_top
    have hne : ((selectedOf text m).map (fun x => x.index)).Pairwise (· ≠ ·) := hnodup_sel
    exact (hpw_le.and hne).imp (fun hx => lt_of_le_of_ne hx.1 hx.2)
  · intro x hx
    exact mem_scoredOf (hperm_sorted.mem_iff.mp (List.mem_of_mem_take (hmem_sel x hx)))
  · intro x hx y hy
    have hsplit := List.take_append_drop
      (sliceCount (splitIntoSentences text).length m)
      (stableSortBy scoreBefore (scoredOf text))
    have hpw : (stableSortBy scoreBefore (scoredOf text)).Pairwise
        (fun a b => b.score ≤ a.score) := sorted_by_score _
    rw [← hsplit] at hpw
    exact (List.pairwise_append.mp hpw).2.2 x (hmem_sel x hx) y hy

/-! ## Helper lemmas: segmentation -/

theorem isWsChar_of_isTermChar {c : Char} (h : isTermChar c = true) :
    isWsChar c = false := by
  simp only [isTermChar, Bool.or_eq_true, decide_eq_true_eq] at h
  rcases h with (rfl | rfl) | rfl <;> decide

theorem ne_pipe_of_isTermChar {c : Char} (h : isTermChar c = true) :
    c ≠ pipeChar := by
  simp only [isTermChar, Bool.or_eq_true, decide_eq_true_eq] at h
  rcases h with (rfl | rfl) | rfl <;> decide

theorem replGo_true_of_head {l : List Char} (h : isWsHead l = false) :
    replGo true l = replGo false l := by
  cases l with
  | nil => rfl
  | cons c rest =>
    simp only [isWsHead] at h
    simp [replGo, h]

theorem replGo_true_ws_append (w rest : List Char)
    (hw : ∀ c ∈ w, isWsChar c = true) : replGo true (w ++ rest) = replGo true rest := by
  induction w with
  | nil => rfl
  | cons c w' ih =>
    have hc := hw c (List.mem_cons_self c w')
    simp only [List.cons_append, replGo, hc, Bool.and_self, if_pos]
    exact ih (fun d hd => hw d (List.mem_cons_of_mem c hd))

theorem replGo_false_append (a rest : List Char) (ha : hasTermWs a = false)
    (hr : isWsHead rest = false) :
    replGo false (a ++ rest) = a ++ replGo false rest := by
  induction a with
  | nil => rfl
  | cons c a' ih =>
    simp only [hasTermWs, Bool.or_eq_false_iff] at ha
    have hhead : (isTermChar c && isWsHead (a' ++ rest)) = false := by
      cases a' with
      | nil =>
        simp only [List.nil_append]
        cases hterm : isTermChar c <;> simp [hr]
      | cons d a'' =>
        simpa [isWsHead] using ha.1
    simp [replGo, List.append_eq, hhead, ih ha.2]

theorem replGo_false_id (a : List Char) (ha : hasTermWs a = false) :
    replGo false a = a := by
  have h := replGo_false_append a [] ha (by rfl)
  simpa [replGo] using h

theorem replGo_cons (skipping : Bool) (c : Char) (rest : List Char) :
    replGo skipping (c :: rest) =
      if skipping && isWsChar c then replGo true rest
      else if isTermChar c && isWsHead rest then c :: pipeChar :: replGo true rest
      else c :: replGo false rest := rfl

theorem replGo_punct (p w b : List Char) (hp : p ≠ [])
    (htp : ∀ c ∈ p, isTermChar c = true) (hw : w ≠ [])
    (hws : ∀ c ∈ w, isWsChar c = true) (hb : isWsHead b = false) :
    replGo false (p ++ w ++ b) = p ++ pipeChar :: replGo false b := by
  induction p with
  | nil => cases hp rfl
  | cons c p' ih =>
    have hc := htp c (List.mem_cons_self c p')
    cases p' with
    | nil =>
      cases w with
      | nil => cases hw rfl
      | cons d w' =>
        have hd := hws d (List.mem_cons_self d w')
        have hcond : (isTermChar c && isWsHead ((d :: w') ++ b)) = true := by
          simp [isWsHead, hc, hd]
        have h1 : replGo true ((d :: w') ++ b) = replGo true b :=
          replGo_true_ws_append (d :: w') b hws
        have h2 : replGo true b = replGo false b := replGo_true_of_head hb
        have e1 : [c] ++ (d :: w') ++ b = c :: ((d :: w') ++ b) := by simp
        rw [e1, replGo_cons, if_neg (by simp), if_pos hcond, h1, h2]
        simp
    | cons e p'' =>
      have he := htp e (List.mem_cons_of_mem c (List.mem_cons_self e p''))
      have hcond : ¬ ((isTermChar c && isWsHead ((e :: p'') ++ w ++ b)) = true) := by
        simp [isWsHead, isWsChar_of_isTermChar he]
      have ht := ih (by simp) (fun d hd => htp d (List.mem_cons_of_mem c hd))
      have e1 : (c :: e :: p'') ++ w ++ b = c :: ((e :: p'') ++ w ++ b) := by simp
      rw [e1, replGo_cons, if_neg (by simp), if_neg hcond, ht]
      simp

theorem splitOnPipe_no_pipe (l : List Char) (h : pipeChar ∉ l) :
    splitOnPipe l = [l] := by
  induction l with
  | nil => rfl
  | cons c rest ih =>
    have hc : ¬ (c = pipeChar) := fun hh => h (hh ▸ List.mem_cons_self c rest)
    have hr : pipeChar ∉ rest := fun hh => h (List.mem_cons_of_mem c hh)
    simp [splitOnPipe, hc, ih hr]

theorem splitOnPipe_append (x y : List Char) (hx : pipeChar ∉ x) :
    splitOnPipe (x ++ pipeChar :: y) = x :: splitOnPipe y := by
  induction x with
  | nil => simp [splitOnPipe]
  | cons c x' ih =>
    have hc : ¬ (c = pipeChar) := fun hh => hx (hh ▸ List.mem_cons_self c x')
    have hx' : pipeChar ∉ x' := fun hh => hx (List.mem_cons_of_mem c hh)
    have hr := ih hx'
    simp [splitOnPipe, hc, List.append_eq, hr]

theorem mem_dropWhile_of_not {p : Char → Bool} {c : Char} {l : List Char}
    (hc : c ∈ l) (h : p c = false) : c ∈ l.dropWhile p := by
  have hsplit := List.takeWhile_append_dropWhile (p := p) (l := l)
  rw [← hsplit] at hc
  rcases List.mem_append.mp hc with h1 | h2
  · exact absurd (List.mem_takeWhile_imp h1) (by simp [h])
  · exact h2

theorem trimL_length_pos {s : List Char} {c : Char} (hc : c ∈ s)
    (h : isWsChar c = false) : 0 < (trimL s).length := by
  unfold trimL
  have h1 : c ∈ s.dropWhile isWsChar := mem_dropWhile_of_not hc h
  have h2 : c ∈ (s.dropWhile isWsChar).reverse := List.mem_reverse.mpr h1
  have h3 : c ∈ (s.dropWhile isWsChar).reverse.dropWhile isWsChar :=
    mem_dropWhile_of_not h2 h
  have h4 : ((s.dropWhile isWsChar).reverse.dropWhile isWsChar).reverse ≠ [] := by
    simpa using List.ne_nil_of_mem h3
  exact List.length_pos.mpr h4

/-! ## Claim theorems -/

/-- C1: for every input text whose segmented sentence count is at most
`maxSentences`, `summarize` returns the original input string itself,
unchanged (including the empty string). -/
theorem summarize_identity_of_few_sentences (text : List Char) (maxSentences : ℤ)
    (h : ((splitIntoSentences text).length : ℤ) ≤ maxSentences) :
    summarize text maxSentences = text := by
  unfold summarize
  simp [h]

/-- Witness for C1 at the one-sentence text `"Hi."` with `maxSentences = 3`. -/
theorem summarize_identity_of_few_sentences_witness :
    ((splitIntoSentences ['H', 'i', '.']).length : ℤ) ≤ 3 ∧
      summarize ['H', 'i', '.'] 3 = ['H', 'i', '.'] :=
  ⟨by decide, summarize_identity_of_few_sentences ['H', 'i', '.'] 3 (by decide)⟩

/-- C6: a text that segments into 3 sentences summarized with
`maxSentences = 0` yields the empty string (zero sentences joined), not the
original text. -/
theorem summarize_zero_max_empty (text : List Char)
    (h : (splitIntoSentences text).length = 3) : summarize text 0 = [] := by
  have hsel : selectedOf text 0 = [] := by
    unfold selectedOf
    have hc : sliceCount (splitIntoSentences text).length 0 = 0 := by
      simp [sliceCount]
    rw [hc]
    rfl
  unfold summarize
  simp only [h, hsel]
  norm_num
  rfl

/-- Witness for C6 at the three-sentence text `"A. B. C."`. -/
theorem summarize_zero_max_empty_witness :
    (splitIntoSentences ['A', '.', ' ', 'B', '.', ' ', 'C', '.']).length = 3 ∧
      summarize ['A', '.', ' ', 'B', '.', ' ', 'C', '.'] 0 = [] :=
  ⟨by decide, summarize_zero_max_empty ['A', '.', ' ', 'B', '.', ' ', 'C', '.'] (by decide)⟩

/-- Summing a list through a fold with accumulator, as the scoring loop does. -/
theorem foldl_add_map (g : List Char → ℚ) (l : List (List Char)) (c : ℚ) :
    l.foldl (fun acc w => acc + g w) c = c + (l.map g).sum := by
  induction l generalizing c with
  | nil => simp
  | cons w ws ih => simp [ih, add_assoc]

/-- C3: the score of a sentence equals
`(frequencyScore * 0.5 + lengthScore * 0.3) * positionScore`, where
`frequencyScore` is the sum over the sentence's tokens (normalised like the
Frequency Model, occurrences not deduplicated) of their global counts, and
`lengthScore = min(tokenCount, 20) / 20`. -/
theorem scoreSentence_formula (sentence : List Char)
    (wordFrequency : List (List Char × ℕ)) (index totalSentences : ℕ) :
    scoreSentence sentence wordFrequency index totalSentences =
      (((wordsOf sentence).map
          (fun w => (getOrZero wordFrequency w : ℚ))).sum * 0.5 +
        min ((wordsOf sentence).length : ℚ) 20 / 20 * 0.3) *
        positionScore index totalSentences := by
  unfold scoreSentence
  dsimp only
  rw [foldl_add_map, zero_add, Nat.cast_min]
  norm_num

/-- C4: the position factor is exactly `1.5` for the first or last index,
else exactly `1.2` strictly inside the first or last 20 % of positions
(strict comparisons, so an index exactly at the fraction is not boosted),
else exactly `1.0`. -/
theorem positionScore_cases (index totalSentences : ℕ)
    (h : index < totalSentences) :
    (index = 0 ∨ index = totalSentences - 1 →
      positionScore index totalSentences = 1.5) ∧
    (index ≠ 0 → index ≠ totalSentences - 1 →
      ((index : ℚ) < (totalSentences : ℚ) * 0.2 ∨
        (index : ℚ) > (totalSentences : ℚ) * 0.8) →
      positionScore index totalSentences = 1.2) ∧
    (index ≠ 0 → index ≠ totalSentences - 1 →
      ¬ ((index : ℚ) < (totalSentences : ℚ) * 0.2 ∨
        (index : ℚ) > (totalSentences : ℚ) * 0.8) →
      positionScore index totalSentences = 1.0) := by
  refine ⟨?_, ?_, ?_⟩
  · intro h0
    unfold positionScore
    rw [if_pos h0]
  · intro h0 h1 h2
    unfold positionScore
    rw [if_neg (by tauto), if_pos h2]
  · intro h0 h1 h2
    unfold positionScore
    rw [if_neg (by tauto), if_neg h2]

/-- Witness for C4 at `index = 2`, `totalSentences = 10`: the index sits
exactly at the 20 % fraction and is not boosted. -/
theorem positionScore_cases_witness :
    2 < 10 ∧ positionScore 2 10 = 1.0 :=
  ⟨by decide,
    (positionScore_cases 2 10 (by decide)).2.2 (by decide) (by decide)
      (by with_unfolding_all decide)⟩

/-- C5: `summarize("A. B. C. D. E.", 2)` returns exactly `"A. E."`: the first
and last sentences get the 1.5 boost, out-score the interior ones and are
rejoined in original order with a single space. -/
theorem summarize_concrete_first_last :
    summarize ['A', '.', ' ', 'B', '.', ' ', 'C', '.', ' ', 'D', '.', ' ',
      'E', '.'] 2 = ['A', '.', ' ', 'E', '.'] := by
  with_unfolding_all decide

/-- C2: when the sentence count exceeds a positive `maxSentences`, the summary
is exactly `maxSentences` of the segmented sentences, joined by single
spaces, in their original order of appearance (strictly increasing original
indices). -/
theorem summarize_exceeding_selects_exactly (text : List Char) (m : ℤ)
    (hpos : 0 < m) (hlt : m < ((splitIntoSentences text).length : ℤ)) :
    ∃ idxs : List ℕ,
      (idxs.length : ℤ) = m ∧
      idxs.Pairwise (· < ·) ∧
      (∀ i ∈ idxs, i < (splitIntoSentences text).length) ∧
      summarize text m = joinSpace (idxs.map
        (fun i => (splitIntoSentences text).getD i [])) := by
  obtain ⟨rest, hperm, hlen, hpw, hmem, hscore⟩ := selectedOf_spec text m
  have hcnt : sliceCount (splitIntoSentences text).length m = m.toNat := by
    unfold sliceCount
    rw [if_neg (by omega)]
    omega
  refine ⟨(selectedOf text m).map (fun x => x.index), ?_, hpw, ?_, ?_⟩
  · rw [List.length_map, hlen, hcnt]
    omega
  · intro i hi
    rcases List.mem_map.mp hi with ⟨x, hx, rfl⟩
    exact (hmem x hx).1
  · have hn : ¬ ((splitIntoSentences text).length : ℤ) ≤ m := by omega
    have hmap : ((selectedOf text m).map (fun x => x.index)).map
        (fun i => (splitIntoSentences text).getD i []) =
        (selectedOf text m).map (fun x => x.sentence) := by
      rw [List.map_map]
      exact List.map_congr_left (fun x hx => ((hmem x hx).2).symm)
    unfold summarize
    rw [if_neg hn, hmap]

/-- Witness for C2 at `"A. B. C. D. E."` with `maxSentences = 2`. -/
theorem summarize_exceeding_selects_exactly_witness :
    (0 : ℤ) < 2 ∧
    (2 : ℤ) < ((splitIntoSentences ['A', '.', ' ', 'B', '.', ' ', 'C', '.',
      ' ', 'D', '.', ' ', 'E', '.']).length : ℤ) ∧
    ∃ idxs : List ℕ,
      (idxs.length : ℤ) = 2 ∧
      idxs.Pairwise (· < ·) ∧
      (∀ i ∈ idxs, i < (splitIntoSentences ['A', '.', ' ', 'B', '.', ' ',
        'C', '.', ' ', 'D', '.', ' ', 'E', '.']).length) ∧
      summarize ['A', '.', ' ', 'B', '.', ' ', 'C', '.', ' ', 'D', '.', ' ',
        'E', '.'] 2 =
        joinSpace (idxs.map (fun i =>
          (splitIntoSentences ['A', '.', ' ', 'B', '.', ' ', 'C', '.', ' ',
            'D', '.', ' ', 'E', '.']).getD i [])) :=
  ⟨by decide, by decide,
    summarize_exceeding_selects_exactly _ 2 (by decide) (by decide)⟩

/-- C9: `summarize` is a total function whose result is always either the
original text (short-circuit) or a single-space join of a strictly-increasing
selection of the segmented sentences; degenerate inputs degrade to the empty
join rather than failing. -/
theorem summarize_total_characterization (text : List Char) (m : ℤ) :
    summarize text m = text ∨
      ∃ idxs : List ℕ, idxs.Pairwise (· < ·) ∧
        (∀ i ∈ idxs, i < (splitIntoSentences text).length) ∧
        summarize text m = joinSpace (idxs.map
          (fun i => (splitIntoSentences text).getD i [])) := by
  by_cases h : ((splitIntoSentences text).length : ℤ) ≤ m
  · left
    unfold summarize
    simp [h]
  · right
    obtain ⟨rest, hperm, hlen, hpw, hmem, hscore⟩ := selectedOf_spec text m
    refine ⟨(selectedOf text m).map (fun x => x.index), hpw, ?_, ?_⟩
    · intro i hi
      rcases List.mem_map.mp hi with ⟨x, hx, rfl⟩
      exact (hmem x hx).1
    · have hmap : ((selectedOf text m).map (fun x => x.index)).map
          (fun i => (splitIntoSentences text).getD i []) =
          (selectedOf text m).map (fun x => x.sentence) := by
        rw [List.map_map]
        exact List.map_congr_left (fun x hx => ((hmem x hx).2).symm)
      unfold summarize
      rw [if_neg h, hmap]

/-- C10: with a negative `maxSentences = m` and `n ≥ 1` sentences the
short-circuit is not taken; the summary keeps the `n + m` highest-scoring
sentences in original order when `n + m > 0` (every dropped sentence scores
no higher than any kept one) and is the empty string when `n + m ≤ 0`. -/
theorem summarize_negative_maxSentences (text : List Char) (m : ℤ)
    (hneg : m < 0) (hn : 1 ≤ (splitIntoSentences text).length) :
    (((splitIntoSentences text).length : ℤ) + m ≤ 0 → summarize text m = []) ∧
    (0 < ((splitIntoSentences text).length : ℤ) + m →
      ∃ sel rest : List ScoredSentence,
        (sel ++ rest).Perm (scoredOf text) ∧
        (sel.length : ℤ) = ((splitIntoSentences text).length : ℤ) + m ∧
        (sel.map (fun x => x.index)).Pairwise (· < ·) ∧
        (∀ x ∈ sel, x.index < (splitIntoSentences text).length ∧
          x.sentence = (splitIntoSentences text).getD x.index []) ∧
        (∀ x ∈ sel, ∀ y ∈ rest, y.score ≤ x.score) ∧
        summarize text m = joinSpace (sel.map (fun x => x.sentence))) := by
  have hsc : ¬ ((splitIntoSentences text).length : ℤ) ≤ m := by omega
  obtain ⟨rest, hperm, hlen, hpw, hmem, hscore⟩ := selectedOf_spec text m
  have hcnt : sliceCount (splitIntoSentences text).length m =
      (((splitIntoSentences text).length : ℤ) + m).toNat := by
    unfold sliceCount
    rw [if_pos hneg]
  constructor
  · intro hle
    have hzero : (selectedOf text m).length = 0 := by
      rw [hlen, hcnt]
      omega
    have hnil : selectedOf text m = [] := List.length_eq_zero.mp hzero
    unfold summarize
    rw [if_neg hsc, hnil]
    rfl
  · intro hposn
    refine ⟨selectedOf text m, rest, hperm, ?_, hpw, hmem, hscore, ?_⟩
    · rw [hlen, hcnt]
      omega
    · unfold summarize
      rw [if_neg hsc]

/-- Witness for C10 at `"A. B. C."` with `maxSentences = -3`: all three
sentences are dropped and the empty string is returned. -/
theorem summarize_negative_maxSentences_witness :
    (-3 : ℤ) < 0 ∧ 1 ≤ (splitIntoSentences ['A', '.', ' ', 'B', '.', ' ',
      'C', '.']).length ∧
      summarize ['A', '.', ' ', 'B', '.', ' ', 'C', '.'] (-3) = [] :=
  ⟨by decide, by decide,
    (summarize_negative_maxSentences ['A', '.', ' ', 'B', '.', ' ', 'C', '.']
      (-3) (by decide) (by decide)).1 (by decide)⟩

/-- C7 counterexample: the claim "every text with no terminal punctuation
followed by whitespace segments into exactly one segment, the whole text"
fails on the empty text (zero segments) and on `"a|b"` (two segments,
because the splitting sentinel `|` already occurs in the input). -/
theorem splitIntoSentences_one_segment_counterexample :
    (hasTermWs [] = false ∧ splitIntoSentences [] ≠ [([] : List Char)]) ∧
    (hasTermWs ['a', pipeChar, 'b'] = false ∧
      splitIntoSentences ['a', pipeChar, 'b'] ≠ [['a', pipeChar, 'b']]) := by
  decide

/-- C7 (amended): a text containing a non-whitespace character, no `|`
character and no terminal punctuation followed by whitespace segments into
exactly one segment, the whole text; and a run of consecutive terminal
punctuation followed by a whitespace run produces exactly one split point
(one boundary, not one per punctuation character). -/
theorem splitIntoSentences_one_segment_amended :
    (∀ text : List Char, hasTermWs text = false → pipeChar ∉ text →
      (∃ c ∈ text, isWsChar c = false) → splitIntoSentences text = [text]) ∧
    (∀ a p w b : List Char,
      hasTermWs a = false → pipeChar ∉ a →
      p ≠ [] → (∀ c ∈ p, isTermChar c = true) →
      w ≠ [] → (∀ c ∈ w, isWsChar c = true) →
      hasTermWs b = false → pipeChar ∉ b → b ≠ [] → isWsHead b = false →
      splitIntoSentences (a ++ p ++ w ++ b) = [a ++ p, b]) := by
  constructor
  · rintro text h1 h2 ⟨c, hc, hcw⟩
    unfold splitIntoSentences
    rw [replGo_false_id text h1, splitOnPipe_no_pipe text h2]
    have hpos := trimL_length_pos hc hcw
    simp [List.filter, hpos]
  · intro a p w b ha hpa hp htp hw hws hb hpb hbne hbh
    unfold splitIntoSentences
    have hr1 : isWsHead (p ++ w ++ b) = false := by
      cases p with
      | nil => cases hp rfl
      | cons c p' =>
        have := isWsChar_of_isTermChar (htp c (List.mem_cons_self c p'))
        simp [isWsHead, this]
    have e0 : a ++ p ++ w ++ b = a ++ (p ++ w ++ b) := by
      simp [List.append_assoc]
    rw [e0, replGo_false_append a _ ha hr1,
      replGo_punct p w b hp htp hw hws hbh, replGo_false_id b hb]
    have hnp : pipeChar ∉ a ++ p := by
      intro hmem
      rcases List.mem_append.mp hmem with h | h
      · exact hpa h
      · exact ne_pipe_of_isTermChar (htp _ h) rfl
    have e1 : a ++ (p ++ pipeChar :: b) = (a ++ p) ++ pipeChar :: b := by
      simp [List.append_assoc]
    rw [e1, splitOnPipe_append _ _ hnp, splitOnPipe_no_pipe b hpb]
    obtain ⟨c, hcp⟩ : ∃ c, c ∈ p := by
      cases p with
      | nil => cases hp rfl
      | cons c p' => exact ⟨c, List.mem_cons_self c p'⟩
    have h1 : 0 < (trimL (a ++ p)).length :=
      trimL_length_pos (List.mem_append_right a hcp)
        (isWsChar_of_isTermChar (htp c hcp))
    have hbw : isWsChar (b.head hbne) = false := by
      cases b with
      | nil => cases hbne rfl
      | cons d b' => simpa [isWsHead] using hbh
    have h2 : 0 < (trimL b).length :=
      trimL_length_pos (List.head_mem hbne) hbw
    simp [List.filter, h1, h2]

/-- Witness for the amended C7: `"Hi"` (no boundary) segments into itself,
and `"A?! B"` (a two-character punctuation run before one space) segments
into exactly two sentences `"A?!"` and `"B"`. -/
theorem splitIntoSentences_one_segment_amended_witness :
    splitIntoSentences ['H', 'i'] = [['H', 'i']] ∧
    splitIntoSentences ['A', '?', '!', ' ', 'B'] = [['A', '?', '!'], ['B']] := by
  constructor
  · exact splitIntoSentences_one_segment_amended.1 ['H', 'i'] (by decide)
      (by decide) ⟨'H', by decide, by decide⟩
  · have h := splitIntoSentences_one_segment_amended.2 ['A'] ['?', '!'] [' ']
      ['B'] (by decide) (by decide) (by decide) (by decide) (by decide)
      (by decide) (by decide) (by decide) (by decide) (by decide)
    simpa using h

/-- C8: word-frequency counting is case- and punctuation-insensitive: the
stored count of any key equals the number of normalised-word occurrences in
the text, and the occurrence forms `"Cat"`, `"cat,"` and `"CAT"` all
normalise to the single key `"cat"` (so `"Cat cat, CAT"` yields the map
`{"cat": 3}`). -/
theorem calculateWordFrequency_counts :
    (∀ text w : List Char,
      getOrZero (calculateWordFrequency text) w = (wordsOf text).count w) ∧
    wordsOf ['C', 'a', 't'] = [['c', 'a', 't']] ∧
    wordsOf ['c', 'a', 't', ','] = [['c', 'a', 't']] ∧
    wordsOf ['C', 'A', 'T'] = [['c', 'a', 't']] ∧
    calculateWordFrequency
        ['C', 'a', 't', ' ', 'c', 'a', 't', ',', ' ', 'C', 'A', 'T'] =
      [(['c', 'a', 't'], 3)] :=
  ⟨getOrZero_calculateWordFrequency, by decide, by decide, by decide, by decide⟩
